import Mathlib

/-!
Shallow embedding of the `cp` package (a concurrent file/directory copier
over the `afero.Fs` filesystem abstraction).

Paths are modelled as lists of components, byte contents as lists of
naturals, and the filesystem as a finite association list of entries plus
a set of paths whose stat/open/create fails with a permission-style
(non-not-exist) error; the latter is how the spec's tests inject per-file
failures.  The goroutine/channel machinery of `copier` is modelled by its
sequential semantics: the walker (`walk`) produces the job list from a
snapshot of the filesystem, and the worker pool (`copyFiles`) drains it in
order whenever it has at least one worker; with zero workers nothing ever
receives from the unbuffered `work` channel, the wait group is empty, the
`failures` channel closes immediately and `Copy` returns `nil` with no job
executed, which is exactly what the zero-worker branch below returns.
-/

namespace Cp

abbrev Path := List String

/-- A filesystem entry: a regular file (byte content and permission bits)
or a directory (permission bits). -/
inductive Entry where
  | file (content : List Nat) (mode : Nat)
  | dir (mode : Nat)
deriving DecidableEq

def Entry.mode : Entry → Nat
  | .file _ m => m
  | .dir m => m

/-- Model of `afero.Fs`: an association list of entries (earlier pairs
shadow later ones) plus the paths on which stat/open/create fail with a
permission-style error. -/
structure FS where
  entries : List (Path × Entry)
  denied : List Path
deriving DecidableEq

def lookupEntry : List (Path × Entry) → Path → Option Entry
  | [], _ => none
  | (p, e) :: rest, q => if p = q then some e else lookupEntry rest q

def FS.find (fs : FS) (p : Path) : Option Entry := lookupEntry fs.entries p

def FS.set (fs : FS) (p : Path) (e : Entry) : FS := ⟨(p, e) :: fs.entries, fs.denied⟩

/-- Result of `Fs.Stat`: success (with `IsDir` and `Mode` of the info), an
error satisfying `os.IsNotExist`, or any other error. -/
inductive StatRes where
  | ok (isDir : Bool) (mode : Nat)
  | errNotExist
  | errOther
deriving DecidableEq

def FS.stat (fs : FS) (p : Path) : StatRes :=
  if p ∈ fs.denied then .errOther
  else match fs.find p with
    | some (.file _ m) => .ok false m
    | some (.dir m) => .ok true m
    | none => .errNotExist

/-- Model of `os.IsNotExist` applied to the outcome of a stat (Go's
`os.IsNotExist(nil) = false`, so the success case maps to `false`). -/
def isNotExist : StatRes → Bool
  | .errNotExist => true
  | _ => false

/-- Error taxonomy: one constructor per `errors.Wrap` site of the source,
plus `ErrClobberAvoided` and the `Failures` aggregate. -/
inductive CpError where
  | statError
  | clobberAvoided (path : Path)
  | openError (path : Path)
  | mkdirError (path : Path)
  | createError (path : Path)
  | copyError (path : Path)
  | walkError
  | failures (errs : List CpError)

/-- Model of `os.MkdirAll` (via `afero`): walk the path top-down, creating
each missing directory with the given permission bits; fail when a regular
file occupies one of the prefixes.  `done` is the already-validated prefix. -/
def mkdirChain : FS → Nat → Path → List String → Option FS
  | fs, _, _, [] => some fs
  | fs, mode, done, a :: rest =>
    match fs.find (done ++ [a]) with
    | some (.file _ _) => none
    | some (.dir _) => mkdirChain fs mode (done ++ [a]) rest
    | none => mkdirChain (fs.set (done ++ [a]) (.dir mode)) mode (done ++ [a]) rest

def mkdirAll (fs : FS) (p : Path) (mode : Nat) : Option FS := mkdirChain fs mode [] p

/-- Effect of `io.Copy` into a file opened `O_CREATE|O_RDWR` *without*
`O_TRUNC`: the source bytes are written from offset 0 and any longer tail
of the previous content survives. -/
def overwrite (new old : List Nat) : List Nat := new ++ old.drop new.length

/-- Model of `copyFile(fs, from, to)`: open `from` for reading, read its
mode, `MkdirAll(filepath.Dir(to), mode)`, `OpenFile(to, O_CREATE|O_RDWR,
mode)`, then stream the bytes.  The returned filesystem carries the side
effects also present when a later step fails. -/
def copyFile (fs : FS) (src dst : Path) : FS × Option CpError :=
  if src ∈ fs.denied then (fs, some (.openError src))
  else match fs.find src with
    | none => (fs, some (.openError src))
    | some srcEntry =>
      match mkdirAll fs dst.dropLast srcEntry.mode with
      | none => (fs, some (.mkdirError dst))
      | some fs1 =>
        if dst ∈ fs1.denied then (fs1, some (.createError dst))
        else match fs1.find dst with
          | some (.dir _) => (fs1, some (.createError dst))
          | some (.file oldContent oldMode) =>
            match srcEntry with
            | .dir _ => (fs1, some (.copyError dst))
            | .file srcBytes _ =>
              (fs1.set dst (.file (overwrite srcBytes oldContent) oldMode), none)
          | none =>
            match srcEntry with
            | .dir dm => (fs1.set dst (.file [] dm), some (.copyError dst))
            | .file srcBytes sm => (fs1.set dst (.file srcBytes sm), none)

/-- A transfer job, as sent over the `work` channel. -/
structure Job where
  From : Path
  To : Path
deriving DecidableEq

/-- The walker of `copier.walk`: for each visited entry, propagate a
traversal error, skip directories, compute
`toPath = filepath.Join(to, strings.Replace(path, from, "", 1))` (every
walked path extends the root `f`, and the first occurrence of `f` in it is
its prefix, so this is prefix removal), consult the seen set, store the
path and emit the job.  Returns the emitted jobs, the final seen set and
the optional walk error. -/
def walkGo (fs : FS) (f t : Path) :
    List Path → List (Path × Entry) → List Job × List Path × Option CpError
  | seen, [] => ([], seen, none)
  | seen, (p, e) :: rest =>
    if p ∈ fs.denied then ([], seen, some .walkError)
    else match e with
      | .dir _ => walkGo fs f t seen rest
      | .file _ _ =>
        let toPath := t ++ p.drop f.length
        if toPath ∈ seen then walkGo fs f t seen rest
        else
          let r := walkGo fs f t (toPath :: seen) rest
          (⟨p, toPath⟩ :: r.1, r.2)

/-- The sequence of entries `afero.Walk(fs, root, ...)` visits: the root
and everything below it (the traversal order is unspecified by the spec;
the model uses the entry-list order). -/
def walkList (fs : FS) (root : Path) : List (Path × Entry) :=
  fs.entries.filter (fun pe => root.isPrefixOf pe.1)

/-- Worker-pool size of `copier.copyFiles`: the source first replaces a
non-positive `parallel` by 10, then spawns workers with
`for ii := 0; ii < c.parallel-1; ii++`. -/
def effectiveParallel (parallel : Int) : Int := if parallel < 1 then 10 else parallel

def workerCount (parallel : Int) : Nat := (effectiveParallel parallel - 1).toNat

/-- Sequentialized draining of the `work` channel by the workers: each job
runs `copyFile` and a failing job contributes its error to the `failures`
channel without stopping the rest. -/
def runJobs : FS → List Job → FS × List CpError
  | fs, [] => (fs, [])
  | fs, j :: rest =>
    let s := copyFile fs j.From j.To
    let r := runJobs s.1 rest
    match s.2 with
    | none => r
    | some e => (r.1, e :: r.2)

/-- `copier.copyFiles` semantics: with zero spawned workers the wait group
is empty, `failures` closes at once and no job is ever received; otherwise
the pool drains the whole queue. -/
def copyFilesRun (parallel : Int) (fs : FS) (jobs : List Job) : FS × List CpError :=
  if workerCount parallel = 0 then (fs, []) else runJobs fs jobs

/-- `copier.collectErrors`: drain the failure channel and wrap a non-empty
list in `Failures`. -/
def collectErrors (errs : List CpError) : Option CpError :=
  if 0 < errs.length then some (.failures errs) else none

structure CopyRun where
  fs : FS
  seen : List Path
  err : Option CpError

/-- `copier.copy`: run the walker and the pool and collect the failures.
With zero workers `collectErrors` terminates immediately with no error
(the walker is left blocked on the unbuffered `work` channel). -/
def copierCopy (parallel : Int) (fs : FS) (seen : List Path) (f t : Path) : CopyRun :=
  let w := walkGo fs f t seen (walkList fs f)
  let r := copyFilesRun parallel fs w.1
  if workerCount parallel = 0 then
    { fs := r.1, seen := w.2.1, err := none }
  else
    { fs := r.1, seen := w.2.1, err := collectErrors (r.2 ++ w.2.2.toList) }

/-- The `Copier` configuration.  `Fs` is threaded explicitly through the
model functions; `seen` is the nil-able `*sync.Map` field. -/
structure Copier where
  Clobber : Bool
  Parallel : Int
  seen : Option (List Path)
deriving DecidableEq

structure CopyResult where
  copier : Copier
  fs : FS
  err : Option CpError

/-- `Copier.Copy`: the no-op self check, the `from` stat, the clobber
guard `!os.IsNotExist(err) && !c.Clobber`, the single-file branch, the
destination `MkdirAll`, the lazy `seen` initialization and the directory
copy. -/
def Copy (c : Copier) (fs : FS) (f t : Path) : CopyResult :=
  if f = t then ⟨c, fs, none⟩
  else
    match fs.stat f with
    | .errNotExist => ⟨c, fs, some .statError⟩
    | .errOther => ⟨c, fs, some .statError⟩
    | .ok fromIsDir fromMode =>
      if !(isNotExist (fs.stat t)) && !c.Clobber then ⟨c, fs, some (.clobberAvoided t)⟩
      else if !fromIsDir then
        let r := copyFile fs f t
        ⟨c, r.1, r.2⟩
      else
        match mkdirAll fs t fromMode with
        | none => ⟨c, fs, some (.mkdirError t)⟩
        | some fs1 =>
          let run := copierCopy c.Parallel fs1 (c.seen.getD []) f t
          ⟨{ c with seen := some run.seen }, run.fs, run.err⟩

/-- Failure injected on the source path of the job, as in the spec's
"permission errors injected" scenario. -/
def srcFails (fs : FS) (j : Job) : Bool := decide (j.From ∈ fs.denied)

/-- Every non-empty prefix of `rest` extended from `done` is free of
regular files (so `mkdirChain` succeeds there). -/
def chainOk : FS → Path → List String → Bool
  | _, _, [] => true
  | fs, done, a :: rest =>
    (match fs.find (done ++ [a]) with
     | some (.file _ _) => false
     | _ => true) && chainOk fs (done ++ [a]) rest

def dirsClear (fs : FS) (p : Path) : Bool := chainOk fs [] p

/-- The job can be transferred as-is: its source is a readable regular
file, its destination is absent and creatable, and the directory chain
above the destination is free of regular files. -/
def jobReady (fs : FS) (j : Job) : Bool :=
  (match fs.find j.From with | some (.file _ _) => true | _ => false)
  && !(decide (j.From ∈ fs.denied))
  && !(decide (j.To ∈ fs.denied))
  && (match fs.find j.To with | none => true | some _ => false)
  && dirsClear fs j.To.dropLast

/-! Concrete fixtures used by the evaluation theorems and witnesses. -/

def fsSingle : FS :=
  ⟨[(["f"], .file [1, 2] 6), (["t"], .file [9, 9, 9, 9] 7)], []⟩

def fsTwoSrc : FS :=
  ⟨[(["s1"], .dir 7), (["s1", "a"], .file [1] 6),
    (["s2"], .dir 7), (["s2", "a"], .file [2] 6)], []⟩

def fsDirOne : FS := ⟨[(["s"], .dir 7), (["s", "a"], .file [5] 6)], []⟩

def fsDenied : FS := ⟨[(["f"], .file [1] 6)], [["t"]]⟩

def fsFive : FS :=
  ⟨[(["s"], .dir 7), (["s", "a"], .file [1] 6), (["s", "b"], .file [2] 6),
    (["s", "c"], .file [3] 6), (["s", "d"], .file [4] 6), (["s", "e"], .file [5] 6)],
    [["s", "b"], ["s", "d"]]⟩

def jobsFive : List Job :=
  [⟨["s", "a"], ["d", "a"]⟩, ⟨["s", "b"], ["d", "b"]⟩, ⟨["s", "c"], ["d", "c"]⟩,
    ⟨["s", "d"], ["d", "d"]⟩, ⟨["s", "e"], ["d", "e"]⟩]

/-! Basic lemmas about the embedding. -/

theorem walkGo_seen_mono (fs : FS) (f t : Path) :
    ∀ (entries : List (Path × Entry)) (seen : List Path) (x : Path),
      x ∈ seen → x ∈ (walkGo fs f t seen entries).2.1 := by
  intro entries
  induction entries with
  | nil => intro seen x hx; simpa [walkGo] using hx
  | cons pe rest ih =>
    intro seen x hx
    obtain ⟨p, e⟩ := pe
    by_cases hd : p ∈ fs.denied
    · simpa [walkGo, hd] using hx
    · cases e with
      | dir m => simpa [walkGo, hd] using ih seen x hx
      | file co m =>
        by_cases hs : (t ++ p.drop f.length) ∈ seen
        · simpa [walkGo, hd, hs] using ih seen x hx
        · simpa [walkGo, hd, hs] using ih _ x (List.mem_cons_of_mem _ hx)

theorem FS.denied_set (fs : FS) (p : Path) (e : Entry) :
    (fs.set p e).denied = fs.denied := rfl

theorem FS.find_set_self (fs : FS) (p : Path) (e : Entry) :
    (fs.set p e).find p = some e := by
  simp [FS.set, FS.find, lookupEntry]

theorem FS.find_set_ne (fs : FS) (p q : Path) (e : Entry) (h : q ≠ p) :
    (fs.set p e).find q = fs.find q := by
  simp only [FS.set, FS.find, lookupEntry]
  rw [if_neg (fun h' => h h'.symm)]

theorem chainOk_congr : ∀ (rest : List String) (fs fs' : FS) (done : Path),
    (∀ r : List String, r ≠ [] → r <+: rest →
      fs'.find (done ++ r) = fs.find (done ++ r)) →
    chainOk fs' done rest = chainOk fs done rest := by
  intro rest
  induction rest with
  | nil => intro fs fs' done _; rfl
  | cons a rest ih =>
    intro fs fs' done h
    have h1 : fs'.find (done ++ [a]) = fs.find (done ++ [a]) :=
      h [a] (by simp) ⟨rest, rfl⟩
    have h2 : ∀ r : List String, r ≠ [] → r <+: rest →
        fs'.find ((done ++ [a]) ++ r) = fs.find ((done ++ [a]) ++ r) := by
      intro r hr hp
      have hp' : a :: r <+: a :: rest := (List.cons_prefix_cons).mpr ⟨rfl, hp⟩
      have := h (a :: r) (by simp) hp'
      simpa [List.append_assoc] using this
    simp [chainOk, h1, ih fs fs' (done ++ [a]) h2]

theorem chainOk_mono : ∀ (rest : List String) (fs fs' : FS) (done : Path),
    chainOk fs done rest = true →
    (∀ r : List String, r ≠ [] → r <+: rest →
      fs'.find (done ++ r) = fs.find (done ++ r)
        ∨ ∃ mm, fs'.find (done ++ r) = some (.dir mm)) →
    chainOk fs' done rest = true := by
  intro rest
  induction rest with
  | nil => intro _ _ _ _ _; rfl
  | cons a rest ih =>
    intro fs fs' done hok h
    simp only [chainOk, Bool.and_eq_true] at hok ⊢
    obtain ⟨hok1, hok2⟩ := hok
    constructor
    · rcases h [a] (by simp) ⟨rest, rfl⟩ with heq | ⟨mm, hd⟩
      · rw [heq]; exact hok1
      · rw [hd]
    · refine ih fs fs' (done ++ [a]) hok2 ?_
      intro r hr hp
      have hp' : a :: r <+: a :: rest := (List.cons_prefix_cons).mpr ⟨rfl, hp⟩
      have := h (a :: r) (by simp) hp'
      simpa [List.append_assoc] using this

theorem mkdirChain_ok : ∀ (rest : List String) (fs : FS) (done : Path) (mode : Nat),
    chainOk fs done rest = true →
    ∃ fs1, mkdirChain fs mode done rest = some fs1
      ∧ fs1.denied = fs.denied
      ∧ ∀ q, fs1.find q = fs.find q
          ∨ (fs.find q = none ∧ fs1.find q = some (.dir mode)
              ∧ ∃ r : List String, r ≠ [] ∧ r <+: rest ∧ q = done ++ r) := by
  intro rest
  induction rest with
  | nil =>
    intro fs done mode _
    exact ⟨fs, rfl, rfl, fun q => Or.inl rfl⟩
  | cons a rest ih =>
    intro fs done mode hok
    simp only [chainOk, Bool.and_eq_true] at hok
    obtain ⟨hok1, hok2⟩ := hok
    cases hq : fs.find (done ++ [a]) with
    | some e =>
      cases e with
      | file co m => rw [hq] at hok1; simp at hok1
      | dir m0 =>
        obtain ⟨fs1, hrun, hden, hframe⟩ := ih fs (done ++ [a]) mode hok2
        refine ⟨fs1, by simp [mkdirChain, hq, hrun], hden, ?_⟩
        intro q
        rcases hframe q with heq | ⟨hn, hd, r, hr, hp, hqeq⟩
        · exact Or.inl heq
        · refine Or.inr ⟨hn, hd, a :: r, by simp, (List.cons_prefix_cons).mpr ⟨rfl, hp⟩, ?_⟩
          rw [hqeq]; simp [List.append_assoc]
    | none =>
      have hcong : chainOk (fs.set (done ++ [a]) (.dir mode)) (done ++ [a]) rest
          = chainOk fs (done ++ [a]) rest := by
        apply chainOk_congr
        intro r hr hp
        apply FS.find_set_ne
        intro hcontra
        have hlen : ((done ++ [a]) ++ r).length = (done ++ [a]).length := by rw [hcontra]
        simp at hlen
        exact hr hlen
      obtain ⟨fs1, hrun, hden, hframe⟩ :=
        ih (fs.set (done ++ [a]) (.dir mode)) (done ++ [a]) mode (by rw [hcong]; exact hok2)
      refine ⟨fs1, by simp [mkdirChain, hq, hrun], hden.trans (FS.denied_set _ _ _), ?_⟩
      intro q
      by_cases hqa : q = done ++ [a]
      · subst hqa
        rcases hframe (done ++ [a]) with heq | ⟨hn, hd, r, hr, hp, hqeq⟩
        · refine Or.inr ⟨hq, ?_, [a], by simp, ⟨rest, rfl⟩, rfl⟩
          rw [heq]
          exact FS.find_set_self fs (done ++ [a]) (.dir mode)
        · rw [FS.find_set_self] at hn
          exact absurd hn (by simp)
      · have hfsq : (fs.set (done ++ [a]) (.dir mode)).find q = fs.find q :=
          FS.find_set_ne _ _ _ _ hqa
        rcases hframe q with heq | ⟨hn, hd, r, hr, hp, hqeq⟩
        · exact Or.inl (heq.trans hfsq)
        · refine Or.inr ⟨by rw [← hfsq]; exact hn, hd, a :: r, by simp,
            (List.cons_prefix_cons).mpr ⟨rfl, hp⟩, ?_⟩
          rw [hqeq]; simp [List.append_assoc]

theorem jobReady_parts (fs : FS) (j : Job) (h : jobReady fs j = true) :
    (∃ co m, fs.find j.From = some (.file co m))
    ∧ j.From ∉ fs.denied ∧ j.To ∉ fs.denied
    ∧ fs.find j.To = none ∧ dirsClear fs j.To.dropLast = true := by
  simp only [jobReady, Bool.and_eq_true, Bool.not_eq_true', decide_eq_false_iff_not] at h
  obtain ⟨⟨⟨⟨hFrom, hFromD⟩, hToD⟩, hToN⟩, hChain⟩ := h
  refine ⟨?_, hFromD, hToD, ?_, hChain⟩
  · cases hf : fs.find j.From with
    | none => rw [hf] at hFrom; simp at hFrom
    | some e => cases e with
      | file co m => exact ⟨co, m, rfl⟩
      | dir m => rw [hf] at hFrom; simp at hFrom
  · cases ht : fs.find j.To with
    | none => rfl
    | some e => rw [ht] at hToN; simp at hToN

theorem jobReady_of_parts (fs : FS) (j : Job)
    (hFrom : ∃ co m, fs.find j.From = some (.file co m))
    (hFromD : j.From ∉ fs.denied) (hToD : j.To ∉ fs.denied)
    (hToN : fs.find j.To = none) (hChain : dirsClear fs j.To.dropLast = true) :
    jobReady fs j = true := by
  obtain ⟨co, m, hf⟩ := hFrom
  simp only [jobReady, Bool.and_eq_true, Bool.not_eq_true', decide_eq_false_iff_not]
  exact ⟨⟨⟨⟨by rw [hf], hFromD⟩, hToD⟩, by rw [hToN]⟩, hChain⟩

theorem jobReady_not_srcFails (fs : FS) (j : Job) (h : jobReady fs j = true) :
    srcFails fs j = false := by
  have := (jobReady_parts fs j h).2.1
  simpa [srcFails] using this

theorem srcFails_congr {fs fs1 : FS} (h : fs1.denied = fs.denied) (j : Job) :
    srcFails fs1 j = srcFails fs j := by
  simp [srcFails, h]

theorem copyFile_src_denied (fs : FS) (j : Job) (h : srcFails fs j = true) :
    copyFile fs j.From j.To = (fs, some (.openError j.From)) := by
  have h' : j.From ∈ fs.denied := of_decide_eq_true h
  simp [copyFile, h']

theorem copyFile_ready (fs : FS) (j : Job) (h : jobReady fs j = true) :
    ∃ fs1, copyFile fs j.From j.To = (fs1, none)
      ∧ fs1.denied = fs.denied
      ∧ (∀ co m, fs.find j.From = some (.file co m) → fs1.find j.To = some (.file co m))
      ∧ ∀ q, q ≠ j.To →
          (fs1.find q = fs.find q
            ∨ (fs.find q = none ∧ (∃ mm, fs1.find q = some (.dir mm))
                ∧ q <+: j.To ∧ q ≠ j.To)) := by
  obtain ⟨⟨co, m, hf⟩, hFromD, hToD, hToN, hChain⟩ := jobReady_parts fs j h
  obtain ⟨fsm, hrun, hden, hframe⟩ := mkdirChain_ok j.To.dropLast fs [] m hChain
  have hToLen : ∀ r : List String, r ≠ [] → r <+: j.To.dropLast → r ≠ j.To := by
    intro r hr hp hcontra
    have h1 : r.length ≤ j.To.dropLast.length := hp.length_le
    have h2 : j.To.dropLast.length = j.To.length - 1 := j.To.length_dropLast
    have h3 : 0 < r.length := List.length_pos.mpr hr
    rw [hcontra] at h1 h3
    omega
  have hmTo : fsm.find j.To = none := by
    rcases hframe j.To with heq | ⟨_, _, r, hr, hp, hqeq⟩
    · rw [heq]; exact hToN
    · exact absurd (by simpa using hqeq.symm) (hToLen r hr hp)
  have hmToD : j.To ∉ fsm.denied := by rw [hden]; exact hToD
  refine ⟨fsm.set j.To (.file co m), ?_, hden, ?_, ?_⟩
  · simp only [copyFile, hf]
    rw [if_neg hFromD]
    simp only [mkdirAll, Entry.mode, hrun]
    rw [if_neg hmToD, hmTo]
  · intro co' m' hf'
    rw [hf] at hf'
    obtain ⟨h1, h2⟩ : co' = co ∧ m' = m := by
      injection hf' with h'
      injection h' with h1 h2
      exact ⟨h1.symm, h2.symm⟩
    rw [h1, h2]
    exact FS.find_set_self _ _ _
  · intro q hq
    rw [FS.find_set_ne _ _ _ _ hq]
    rcases hframe q with heq | ⟨hn, hd, r, hr, hp, hqeq⟩
    · exact Or.inl heq
    · refine Or.inr ⟨hn, ⟨m, hd⟩, ?_, hq⟩
      have : q <+: j.To.dropLast := by rw [hqeq]; simpa using hp
      exact this.trans ( List.dropLast_prefix j.To)

theorem jobReady_preserved (fs fs1 : FS) (jh jc : Job)
    (hden : fs1.denied = fs.denied)
    (_hTo : ∃ co m, fs1.find jh.To = some (.file co m))
    (hframe : ∀ q, q ≠ jh.To →
        (fs1.find q = fs.find q
          ∨ (fs.find q = none ∧ (∃ mm, fs1.find q = some (.dir mm))
              ∧ q <+: jh.To ∧ q ≠ jh.To)))
    (hToNe : jc.To ≠ jh.To)
    (hp1 : jh.To <+: jc.To → jh.To = jc.To)
    (hp2 : jc.To <+: jh.To → jc.To = jh.To)
    (hFromNp : ¬ jh.To <+: jc.From)
    (h : jobReady fs jc = true) :
    jobReady fs1 jc = true ∧ fs1.find jc.From = fs.find jc.From := by
  obtain ⟨⟨co, m, hf⟩, hFromD, hToD, hToN, hChain⟩ := jobReady_parts fs jc h
  have hFromNe : jc.From ≠ jh.To := by
    intro hcontra
    exact hFromNp (hcontra ▸ List.prefix_refl jh.To)
  have hFr : fs1.find jc.From = fs.find jc.From := by
    rcases hframe jc.From hFromNe with heq | ⟨hn, _, _, _⟩
    · exact heq
    · rw [hf] at hn; exact absurd hn (by simp)
  refine ⟨?_, hFr⟩
  have hToKeep : fs1.find jc.To = none := by
    rcases hframe jc.To hToNe with heq | ⟨_, _, hp, _⟩
    · rw [heq]; exact hToN
    · exact absurd (hp2 hp) hToNe
  refine jobReady_of_parts fs1 jc ⟨co, m, by rw [hFr]; exact hf⟩
    (by rw [hden]; exact hFromD) (by rw [hden]; exact hToD) hToKeep ?_
  refine chainOk_mono jc.To.dropLast fs fs1 [] hChain ?_
  intro r hr hp
  have hrTo : ([] : Path) ++ r ≠ jh.To := by
    simp only [List.nil_append]
    intro hcontra
    have hpre : jh.To <+: jc.To := by
      rw [← hcontra]
      exact hp.trans ( List.dropLast_prefix jc.To)
    have heq := hp1 hpre
    rw [← hcontra] at heq
    have h1 : r.length ≤ jc.To.dropLast.length := hp.length_le
    have h2 : jc.To.dropLast.length = jc.To.length - 1 := jc.To.length_dropLast
    have h3 : 0 < r.length := List.length_pos.mpr hr
    have h4 : r.length = jc.To.length := by rw [heq]
    omega
  rcases hframe (([] : Path) ++ r) hrTo with heq | ⟨_, hd, _, _⟩
  · exact Or.inl heq
  · exact Or.inr hd

theorem runJobs_exact : ∀ (jobs : List Job) (fs : FS),
    ((jobs.map Job.To).Nodup) →
    (∀ j ∈ jobs, ∀ j' ∈ jobs, j.To <+: j'.To → j.To = j'.To) →
    (∀ j ∈ jobs, ∀ j' ∈ jobs, ¬ j.To <+: j'.From) →
    (∀ j ∈ jobs, srcFails fs j = true ∨ jobReady fs j = true) →
    (runJobs fs jobs).1.denied = fs.denied
    ∧ (runJobs fs jobs).2
      = (jobs.filter (fun j => srcFails fs j)).map (fun j => CpError.openError j.From)
    ∧ (∀ j ∈ jobs, jobReady fs j = true → ∀ co m, fs.find j.From = some (.file co m) →
        (runJobs fs jobs).1.find j.To = some (.file co m))
    ∧ (∀ q, (runJobs fs jobs).1.find q = fs.find q
        ∨ (∃ j ∈ jobs, q = j.To)
        ∨ (fs.find q = none ∧ (∃ mm, (runJobs fs jobs).1.find q = some (.dir mm))
            ∧ ∃ j ∈ jobs, q <+: j.To ∧ q ≠ j.To)) := by
  intro jobs
  induction jobs with
  | nil =>
    intro fs _ _ _ _
    exact ⟨rfl, rfl, by simp, fun q => Or.inl rfl⟩
  | cons j rest ih =>
    intro fs h2 h3 h4 h5
    have h2' : ((rest.map Job.To).Nodup) ∧ j.To ∉ rest.map Job.To := by
      rw [List.map_cons, List.nodup_cons] at h2
      exact ⟨h2.2, h2.1⟩
    have h3' : ∀ a ∈ rest, ∀ b ∈ rest, a.To <+: b.To → a.To = b.To :=
      fun a ha b hb => h3 a (List.mem_cons_of_mem _ ha) b (List.mem_cons_of_mem _ hb)
    have h4' : ∀ a ∈ rest, ∀ b ∈ rest, ¬ a.To <+: b.From :=
      fun a ha b hb => h4 a (List.mem_cons_of_mem _ ha) b (List.mem_cons_of_mem _ hb)
    rcases h5 j (List.mem_cons_self _ _) with hfail | hready
    · -- the head job fails at open: the filesystem is untouched
      have hcf : copyFile fs j.From j.To = (fs, some (.openError j.From)) :=
        copyFile_src_denied fs j hfail
      have hstep : runJobs fs (j :: rest)
          = ((runJobs fs rest).1, CpError.openError j.From :: (runJobs fs rest).2) := by
        simp [runJobs, hcf]
      have h5' : ∀ a ∈ rest, srcFails fs a = true ∨ jobReady fs a = true :=
        fun a ha => h5 a (List.mem_cons_of_mem _ ha)
      obtain ⟨ihden, iherr, ihwrite, ihframe⟩ := ih fs h2'.1 h3' h4' h5'
      refine ⟨by rw [hstep]; exact ihden, ?_, ?_, ?_⟩
      · rw [hstep]
        simp only [List.filter_cons, hfail, if_true, List.map_cons]
        rw [iherr]
      · intro a ha haready co m hafind
        rcases List.mem_cons.mp ha with rfl | ha'
        · rw [jobReady_not_srcFails fs a haready] at hfail
          exact absurd hfail (by simp)
        · rw [hstep]
          exact ihwrite a ha' haready co m hafind
      · intro q
        rcases ihframe q with heq | ⟨a, ha, haq⟩ | ⟨hn, hd, a, ha, hp, hne⟩
        · exact Or.inl (by rw [hstep]; exact heq)
        · exact Or.inr (Or.inl ⟨a, List.mem_cons_of_mem _ ha, haq⟩)
        · exact Or.inr (Or.inr ⟨hn, by rw [hstep]; exact hd,
            a, List.mem_cons_of_mem _ ha, hp, hne⟩)
    · -- the head job is transferred
      obtain ⟨co, m, hfj⟩ := (jobReady_parts fs j hready).1
      obtain ⟨fs1, hcf, hden1, hwrite1, hframe1⟩ := copyFile_ready fs j hready
      have hTo1 : fs1.find j.To = some (.file co m) := hwrite1 co m hfj
      have hstep : runJobs fs (j :: rest) = runJobs fs1 rest := by
        simp [runJobs, hcf]
      have hsf : srcFails fs j = false := jobReady_not_srcFails fs j hready
      have hpres : ∀ a ∈ rest, jobReady fs a = true →
          jobReady fs1 a = true ∧ fs1.find a.From = fs.find a.From := by
        intro a ha
        refine jobReady_preserved fs fs1 j a hden1 ⟨co, m, hTo1⟩ hframe1 ?_ ?_ ?_ ?_
        · intro hcontra
          exact h2'.2 (hcontra ▸ List.mem_map_of_mem Job.To ha)
        · exact h3 j (List.mem_cons_self _ _) a (List.mem_cons_of_mem _ ha)
        · exact h3 a (List.mem_cons_of_mem _ ha) j (List.mem_cons_self _ _)
        · exact h4 j (List.mem_cons_self _ _) a (List.mem_cons_of_mem _ ha)
      have h5' : ∀ a ∈ rest, srcFails fs1 a = true ∨ jobReady fs1 a = true := by
        intro a ha
        rcases h5 a (List.mem_cons_of_mem _ ha) with hf' | hr'
        · exact Or.inl (by rw [srcFails_congr hden1]; exact hf')
        · exact Or.inr (hpres a ha hr').1
      obtain ⟨ihden, iherr, ihwrite, ihframe⟩ := ih fs1 h2'.1 h3' h4' h5'
      refine ⟨by rw [hstep]; exact ihden.trans hden1, ?_, ?_, ?_⟩
      · rw [hstep, iherr]
        simp only [List.filter_cons, hsf, if_false, Bool.false_eq_true]
        refine congrArg _ (List.filter_congr ?_)
        intro a _
        exact srcFails_congr hden1 a
      · intro a ha haready co' m' hafind
        rcases List.mem_cons.mp ha with rfl | ha'
        · rw [hfj] at hafind
          obtain ⟨hco, hm⟩ : co' = co ∧ m' = m := by
            injection hafind with h'
            injection h' with hx hy
            exact ⟨hx.symm, hy.symm⟩
          subst hco; subst hm
          rw [hstep]
          rcases ihframe a.To with heq | ⟨b, hb, hbq⟩ | ⟨hn, _, _⟩
          · rw [heq]; exact hTo1
          · exact absurd (hbq ▸ List.mem_map_of_mem Job.To hb) h2'.2
          · rw [hTo1] at hn; exact absurd hn (by simp)
        · rw [hstep]
          have hpa := hpres a ha' haready
          exact ihwrite a ha' hpa.1 co' m' (by rw [hpa.2]; exact hafind)
      · intro q
        rw [hstep]
        rcases ihframe q with heq | ⟨b, hb, hbq⟩ | ⟨hn1, hd, b, hb, hp, hne⟩
        · by_cases hqTo : q = j.To
          · exact Or.inr (Or.inl ⟨j, List.mem_cons_self _ _, hqTo⟩)
          · rcases hframe1 q hqTo with heq1 | ⟨hn, hd1, hp1, hne1⟩
            · exact Or.inl (heq.trans heq1)
            · exact Or.inr (Or.inr ⟨hn, by rw [heq]; exact hd1,
                j, List.mem_cons_self _ _, hp1, hne1⟩)
        · exact Or.inr (Or.inl ⟨b, List.mem_cons_of_mem _ hb, hbq⟩)
        · have hqTo : q ≠ j.To := by
            intro hcontra
            rw [hcontra, hTo1] at hn1
            exact absurd hn1 (by simp)
          have hn0 : fs.find q = none := by
            rcases hframe1 q hqTo with heq1 | ⟨hn0', hd1, _, _⟩
            · rw [← heq1]; exact hn1
            · exact hn0'
          exact Or.inr (Or.inr ⟨hn0, hd, b, List.mem_cons_of_mem _ hb, hp, hne⟩)

/-- C1: the spec promises a pool of exactly `N` workers (`N` the configured
parallelism, default 10, minimum 1); the loop `for ii := 0; ii < c.parallel-1`
spawns one worker fewer, and in particular `Parallel = 1` yields an empty
pool. -/
theorem c1_worker_pool_off_by_one :
    workerCount 10 = 9 ∧ workerCount 0 = 9 ∧ workerCount (-2) = 9
    ∧ workerCount 1 = 0 ∧ workerCount 4 = 3 := by decide

/-- C2: with `Clobber = true` and a pre-existing longer destination file,
`Copy` succeeds but, because `copyFile` opens the destination without
`O_TRUNC`, the old tail bytes and the old permission bits survive: the
destination does not equal the source. -/
theorem c2_clobber_does_not_truncate :
    (Copy ⟨true, 0, none⟩ fsSingle ["f"] ["t"]).err = none
    ∧ (Copy ⟨true, 0, none⟩ fsSingle ["f"] ["t"]).fs.find ["t"]
      = some (.file [1, 2, 9, 9] 7)
    ∧ (Copy ⟨true, 0, none⟩ fsSingle ["f"] ["t"]).fs.find ["t"]
      ≠ some (.file [1, 2] 6)
    ∧ fsSingle.find ["f"] = some (.file [1, 2] 6) := by
  exact ⟨rfl, rfl, by decide, rfl⟩

/-- C3 counterexample: after a first directory copy on a `Copier` value the
returned value carries a non-empty Seen-set, and a second `Copy` call on
that same value begins with it, so the second source's file `s2/a` (bytes
`[2]`) is silently skipped and the destination keeps the first call's
bytes `[1]`: the second call did not begin with a fresh, empty Seen-set. -/
theorem c3_seen_persists_across_calls :
    (Copy ⟨true, 0, none⟩ fsTwoSrc ["s1"] ["d"]).copier.seen = some [["d", "a"]]
    ∧ (Copy ⟨true, 0, none⟩ fsTwoSrc ["s1"] ["d"]).copier.seen ≠ some []
    ∧ (Copy (Copy ⟨true, 0, none⟩ fsTwoSrc ["s1"] ["d"]).copier
        (Copy ⟨true, 0, none⟩ fsTwoSrc ["s1"] ["d"]).fs ["s2"] ["d"]).err = none
    ∧ (Copy (Copy ⟨true, 0, none⟩ fsTwoSrc ["s1"] ["d"]).copier
        (Copy ⟨true, 0, none⟩ fsTwoSrc ["s1"] ["d"]).fs ["s2"] ["d"]).fs.find ["d", "a"]
      = some (.file [1] 6)
    ∧ fsTwoSrc.find ["s2", "a"] = some (.file [2] 6) := by
  exact ⟨rfl, by decide, rfl, rfl, rfl⟩

/-- C3 amended: the Seen-set is created lazily on the first directory copy
and persists on the `Copier` value: a `Copier` whose `seen` field is nil
behaves exactly as one seeded with the empty set (so distinct `Copier`
values have independent, initially empty Seen-sets), and every `Copy` call
returns its `Copier` either untouched or carrying a Seen-set that extends
the one the call began with. -/
theorem c3_seen_lazy_and_persistent (c : Copier) (fs : FS) (f t : Path) :
    ((Copy c fs f t).fs = (Copy { c with seen := some (c.seen.getD []) } fs f t).fs
      ∧ (Copy c fs f t).err = (Copy { c with seen := some (c.seen.getD []) } fs f t).err)
    ∧ ((Copy c fs f t).copier.seen = c.seen
      ∨ ∃ s, (Copy c fs f t).copier.seen = some s ∧ ∀ x ∈ c.seen.getD [], x ∈ s) := by
  by_cases hft : f = t
  · simp [Copy, hft]
  · cases hstat : fs.stat f with
    | errNotExist => simp [Copy, hft, hstat]
    | errOther => simp [Copy, hft, hstat]
    | ok d m =>
      cases hg : !(isNotExist (fs.stat t)) && !c.Clobber with
      | true => simp [Copy, hft, hstat, hg]
      | false =>
        cases d with
        | false => simp [Copy, hft, hstat, hg]
        | true =>
          cases hmk : mkdirAll fs t m with
          | none => simp [Copy, hft, hstat, hg, hmk]
          | some fs1 =>
            constructor
            · simp [Copy, hft, hstat, hg, hmk]
            · right
              refine ⟨(copierCopy c.Parallel fs1 (c.seen.getD []) f t).seen, ?_, ?_⟩
              · simp [Copy, hft, hstat, hg, hmk]
              · intro x hx
                have h := walkGo_seen_mono fs1 f t (walkList fs1 f) (c.seen.getD []) x hx
                by_cases hw : workerCount c.Parallel = 0 <;>
                  simpa [copierCopy, hw] using h

/-- C4: the completeness claim quantifies over every directory copy, but
with `Parallel = 1` the pool is empty: `Copy` returns `nil` while no file
at all is transferred, so comparing the trees finds `s/a` present under
the source and absent under the destination. -/
theorem c4_parallel_one_copies_nothing :
    (Copy ⟨false, 1, none⟩ fsDirOne ["s"] ["d"]).err = none
    ∧ (Copy ⟨false, 1, none⟩ fsDirOne ["s"] ["d"]).fs.find ["d", "a"] = none
    ∧ fsDirOne.find ["s", "a"] = some (.file [5] 6) :=
  ⟨rfl, rfl, rfl⟩

/-- C5: when the stat of `from` fails `Copy` returns the wrapped stat
error, and when `to` is visible to stat while `Clobber` is false it
returns `ErrClobberAvoided{to}`; in both cases the returned filesystem is
the input one, untouched. -/
theorem c5_validation_short_circuits (c : Copier) (fs : FS) (f t : Path) (hne : f ≠ t) :
    ((fs.stat f = .errNotExist ∨ fs.stat f = .errOther) →
      Copy c fs f t = ⟨c, fs, some .statError⟩)
    ∧ (∀ d m, fs.stat f = .ok d m → isNotExist (fs.stat t) = false → c.Clobber = false →
      Copy c fs f t = ⟨c, fs, some (.clobberAvoided t)⟩) := by
  constructor
  · rintro (h | h) <;> simp [Copy, hne, h]
  · intro d m h hnx hcl
    simp [Copy, hne, h, hnx, hcl]

theorem c5_witness :
    Copy ⟨false, 0, none⟩ fsDirOne ["x"] ["y"]
      = ⟨⟨false, 0, none⟩, fsDirOne, some .statError⟩
    ∧ Copy ⟨false, 0, none⟩ fsSingle ["f"] ["t"]
      = ⟨⟨false, 0, none⟩, fsSingle, some (.clobberAvoided ["t"])⟩ := by
  exact ⟨(c5_validation_short_circuits _ _ _ _ (by decide)).1 (Or.inl (by decide)),
    (c5_validation_short_circuits _ _ _ _ (by decide)).2 false 6 (by decide) (by decide) rfl⟩

/-- C6: `Copy(x, x)` returns `nil` before any filesystem operation, for
every configuration, filesystem and path, and the filesystem is returned
unchanged. -/
theorem c6_self_copy_noop (c : Copier) (fs : FS) (x : Path) :
    Copy c fs x x = ⟨c, fs, none⟩ := by
  simp [Copy]

/-- C8: within one walk, over any visited entry sequence and from any
initial Seen-set, the emitted destination paths are pairwise distinct
(each destination enqueued at most once), none of them was in the initial
Seen-set (later encounters of a seen path are skipped), and each is
inserted into the final Seen-set. -/
theorem c8_walker_dedups_destinations (fs : FS) (f t : Path)
    (entries : List (Path × Entry)) (seen : List Path) :
    (((walkGo fs f t seen entries).1.map Job.To).Nodup)
    ∧ (∀ j ∈ (walkGo fs f t seen entries).1, j.To ∉ seen)
    ∧ (∀ j ∈ (walkGo fs f t seen entries).1, j.To ∈ (walkGo fs f t seen entries).2.1) := by
  induction entries generalizing seen with
  | nil => simp [walkGo]
  | cons pe rest ih =>
    obtain ⟨p, e⟩ := pe
    by_cases hd : p ∈ fs.denied
    · simp [walkGo, hd]
    · cases e with
      | dir m => simpa [walkGo, hd] using ih seen
      | file co m =>
        by_cases hs : (t ++ p.drop f.length) ∈ seen
        · simpa [walkGo, hd, hs] using ih seen
        · obtain ⟨ih1, ih2, ih3⟩ := ih ((t ++ p.drop f.length) :: seen)
          refine ⟨?_, ?_, ?_⟩
          · simp only [walkGo, hd, hs, if_false, if_neg hs, List.map_cons, List.nodup_cons]
            refine ⟨?_, by simpa [walkGo, hd, hs] using ih1⟩
            intro hmem
            obtain ⟨j, hj, hjto⟩ := List.mem_map.mp (by simpa [walkGo, hd, hs] using hmem)
            exact (ih2 j hj) (hjto ▸ List.mem_cons_self _ _)
          · intro j hj
            have hj' : j = (⟨p, t ++ p.drop f.length⟩ : Job)
                ∨ j ∈ (walkGo fs f t ((t ++ p.drop f.length) :: seen) rest).1 := by
              simpa [walkGo, hd, hs] using hj
            rcases hj' with rfl | hj'
            · simpa using hs
            · exact fun hmem => (ih2 j hj') (List.mem_cons_of_mem _ hmem)
          · intro j hj
            have hj' : j = (⟨p, t ++ p.drop f.length⟩ : Job)
                ∨ j ∈ (walkGo fs f t ((t ++ p.drop f.length) :: seen) rest).1 := by
              simpa [walkGo, hd, hs] using hj
            have hseen : (walkGo fs f t seen ((p, Entry.file co m) :: rest)).2.1
                = (walkGo fs f t ((t ++ p.drop f.length) :: seen) rest).2.1 := by
              simp [walkGo, hd, hs]
            rw [hseen]
            rcases hj' with rfl | hj'
            · exact walkGo_seen_mono fs f t rest _ _ (List.mem_cons_self _ _)
            · exact ih3 j hj'

/-- C9: the observable result of `Copy` is not independent of the
configured parallelism: over the same one-file fixture, parallelism 1
produces a destination missing the file (zero workers) while parallelism
4 and 32 agree and copy it. -/
theorem c9_parallelism_changes_result :
    (Copy ⟨false, 1, none⟩ fsDirOne ["s"] ["d"]).fs
      ≠ (Copy ⟨false, 4, none⟩ fsDirOne ["s"] ["d"]).fs
    ∧ (Copy ⟨false, 4, none⟩ fsDirOne ["s"] ["d"]).fs
      = (Copy ⟨false, 32, none⟩ fsDirOne ["s"] ["d"]).fs
    ∧ (Copy ⟨false, 1, none⟩ fsDirOne ["s"] ["d"]).err = none
    ∧ (Copy ⟨false, 4, none⟩ fsDirOne ["s"] ["d"]).err = none := by
  exact ⟨by decide, rfl, rfl, rfl⟩

/-- C10: with `Clobber` false, a destination stat outcome that is not a
not-exist error — for example a permission error — triggers the clobber
guard, even though the destination need not exist. -/
theorem c10_guard_fires_on_stat_error (c : Copier) (fs : FS) (f t : Path)
    (hne : f ≠ t) (hf : ∃ d m, fs.stat f = .ok d m) (ht : fs.stat t = .errOther)
    (hcl : c.Clobber = false) :
    Copy c fs f t = ⟨c, fs, some (.clobberAvoided t)⟩ := by
  obtain ⟨d, m, hf⟩ := hf
  simp [Copy, hne, hf, ht, hcl, isNotExist]

theorem c10_witness :
    Copy ⟨false, 0, none⟩ fsDenied ["f"] ["t"]
      = ⟨⟨false, 0, none⟩, fsDenied, some (.clobberAvoided ["t"])⟩
    ∧ fsDenied.find ["t"] = none :=
  ⟨c10_guard_fires_on_stat_error _ _ _ _ (by decide) ⟨false, 6, by decide⟩ (by decide) rfl,
    by decide⟩

/-- C7: when the pool has at least one worker and a directory copy's job
list has pairwise prefix-free destinations disjoint from the sources, each
job being either open-failing (source denied) or ready, the failing
transfers stop nothing: the pool reports exactly one error per failed
file, `collectErrors` wraps exactly that list in a `Failures`, and every
job whose transfer did not fail has its file present at the destination
with the source's bytes and mode. -/
theorem c7_fail_soft_exact_errors (parallel : Int) (fs : FS) (jobs : List Job)
    (h1 : workerCount parallel ≠ 0)
    (h2 : (jobs.map Job.To).Nodup)
    (h3 : ∀ j ∈ jobs, ∀ j' ∈ jobs, j.To <+: j'.To → j.To = j'.To)
    (h4 : ∀ j ∈ jobs, ∀ j' ∈ jobs, ¬ j.To <+: j'.From)
    (h5 : ∀ j ∈ jobs, srcFails fs j = true ∨ jobReady fs j = true)
    (h6 : ∃ j ∈ jobs, srcFails fs j = true) :
    (copyFilesRun parallel fs jobs).2
      = (jobs.filter (fun j => srcFails fs j)).map (fun j => CpError.openError j.From)
    ∧ collectErrors (copyFilesRun parallel fs jobs).2
      = some (.failures
          ((jobs.filter (fun j => srcFails fs j)).map (fun j => CpError.openError j.From)))
    ∧ ∀ j ∈ jobs, jobReady fs j = true → ∀ co m, fs.find j.From = some (.file co m) →
        (copyFilesRun parallel fs jobs).1.find j.To = some (.file co m) := by
  have hrun : copyFilesRun parallel fs jobs = runJobs fs jobs := by
    simp [copyFilesRun, h1]
  obtain ⟨_, herr, hwrite, _⟩ := runJobs_exact jobs fs h2 h3 h4 h5
  have herr' : (copyFilesRun parallel fs jobs).2
      = (jobs.filter (fun j => srcFails fs j)).map (fun j => CpError.openError j.From) := by
    rw [hrun]; exact herr
  refine ⟨herr', ?_, ?_⟩
  · obtain ⟨j0, hj0, hf0⟩ := h6
    have hmem : CpError.openError j0.From
        ∈ (jobs.filter (fun j => srcFails fs j)).map (fun j => CpError.openError j.From) :=
      List.mem_map_of_mem _ (List.mem_filter.mpr ⟨hj0, hf0⟩)
    have hpos : 0 < ((jobs.filter (fun j => srcFails fs j)).map
        (fun j => CpError.openError j.From)).length :=
      List.length_pos.mpr (List.ne_nil_of_mem hmem)
    rw [herr']
    unfold collectErrors
    rw [if_pos hpos]
  · intro j hj hready co m hfind
    rw [hrun]
    exact hwrite j hj hready co m hfind

theorem c7_witness :
    (copyFilesRun 0 fsFive jobsFive).2
      = [CpError.openError ["s", "b"], CpError.openError ["s", "d"]]
    ∧ collectErrors (copyFilesRun 0 fsFive jobsFive).2
      = some (.failures [CpError.openError ["s", "b"], CpError.openError ["s", "d"]])
    ∧ (copyFilesRun 0 fsFive jobsFive).1.find ["d", "a"] = some (.file [1] 6)
    ∧ (copyFilesRun 0 fsFive jobsFive).1.find ["d", "c"] = some (.file [3] 6)
    ∧ (copyFilesRun 0 fsFive jobsFive).1.find ["d", "e"] = some (.file [5] 6) := by
  obtain ⟨herr, hfail, hwrite⟩ := c7_fail_soft_exact_errors 0 fsFive jobsFive
    (by decide) (by decide) (by decide) (by decide) (by decide) (by decide)
  refine ⟨herr.trans (by rfl), hfail.trans (by rfl), ?_, ?_, ?_⟩
  · exact hwrite ⟨["s", "a"], ["d", "a"]⟩ (by decide) (by decide) [1] 6 (by decide)
  · exact hwrite ⟨["s", "c"], ["d", "c"]⟩ (by decide) (by decide) [3] 6 (by decide)
  · exact hwrite ⟨["s", "e"], ["d", "e"]⟩ (by decide) (by decide) [5] 6 (by decide)

end Cp
